import Mathlib

/-!
Shallow embedding of the DynamoDB-backed DWN stores (`EventLogDynamoDB`,
`MessageStoreDynamoDB`, `ResumableTaskStoreDynamoDB`) and proofs about their
filter translation, composite sort keys, pagination cursors, watermark
allocation, lease queue and error handling.  Definitions follow the
TypeScript sources; line numbers refer to the event-log file (`part_001`),
the message-store file (`part_002`) and `resumable-task-store-dynamodb.ts`.
-/

namespace DwnAws

/-- Lexicographic strict order on character lists, modelling the order
DynamoDB uses for string comparison and for sorting string range keys. -/
def lexLt : List Char → List Char → Bool
  | [], [] => false
  | [], _ :: _ => true
  | _ :: _, [] => false
  | a :: as, b :: bs => if a < b then true else if b < a then false else lexLt as bs

/-- Strict lexicographic order on strings. -/
def strLt (a b : String) : Bool := lexLt a.data b.data

/-- A marshalled DynamoDB attribute value: string (`S`), number (`N`) or
boolean (`BOOL`).  Numbers are modelled as integers, which covers every
numeric index value the stores handle (timestamps and counters). -/
inductive Val where
  | s : String → Val
  | n : Int → Val
  | b : Bool → Val
deriving DecidableEq, Repr

/-- JavaScript truthiness of a value: `if (value['gt'])` treats `0`, the
empty string and `false` like an absent bound. -/
def truthy : Val → Bool
  | Val.s v => decide (v ≠ "")
  | Val.n v => decide (v ≠ 0)
  | Val.b v => v

/-- JavaScript `toString()` of a scalar value. -/
def valToString : Val → String
  | Val.s v => v
  | Val.n v => toString v
  | Val.b true => "true"
  | Val.b false => "false"

/-- A filter entry: a scalar (equality) or a range descriptor
`{gt|gte|lt|lte}` whose bounds may each be absent. -/
inductive FilterVal where
  | scalar : Val → FilterVal
  | range : Option Val → Option Val → Option Val → Option Val → FilterVal
deriving DecidableEq, Repr

/-- JavaScript `toString()` of a filter entry: a range descriptor is an
object and stringifies to `[object Object]`. -/
def fvToString : FilterVal → String
  | FilterVal.scalar v => valToString v
  | FilterVal.range _ _ _ _ => "[object Object]"

/-- One filter group: a JS object, i.e. an association list with unique keys. -/
abbrev FilterGroup := List (String × FilterVal)

/-- A stored item, as an attribute-name/value association list. -/
abbrev DbRecord := List (String × Val)

/-- Attribute access on a stored item. -/
def getAttr (r : DbRecord) (k : String) : Option Val :=
  (r.find? (fun kv => decide (kv.1 = k))).map (fun kv => kv.2)

/-- JS property access on a filter-group object. -/
def groupGet (g : FilterGroup) (k : String) : Option FilterVal :=
  (g.find? (fun kv => decide (kv.1 = k))).map (fun kv => kv.2)

/-- Comparison operators appearing in generated filter expressions. -/
inductive Op where
  | gt | gte | lt | lte | eq
deriving DecidableEq, Repr

/-- One generated condition `attr <op> :placeholder` of a DynamoDB filter
expression. -/
structure Cond where
  attr : String
  op : Op
  placeholder : String
deriving DecidableEq, Repr

/-- Reserved-word replacement applied by both query translators:
`schema → xschema`, `method → xmethod` (event log, line 203). -/
def renameEL (k : String) : String :=
  if k = "schema" then "xschema" else if k = "method" then "xmethod" else k

/-- Removal of the first dot, as done by `key.replace('.', '')` (a JS string
pattern replaces only the first occurrence). -/
def dropFirstDot : List Char → List Char
  | [] => []
  | c :: cs => if c = '.' then cs else c :: dropFirstDot cs

/-- The message store additionally strips a dot from the key (line 327). -/
def renameMS (k : String) : String :=
  String.mk (dropFirstDot (renameEL k).data)

/-- A generated condition together with the value assigned to its
placeholder: the source pushes the condition and writes
`expressionAttributeValues[placeholder] = value` in one step. -/
abbrev CondBind := Cond × Val

/-- Condition/binding generated for one optional range bound; a falsy bound
(`0`, `""`, `false`, absent) generates nothing. -/
def optPair (key : String) (o : Op) (ph : String) : Option Val → List CondBind
  | some v => if truthy v then [(⟨key, o, ph⟩, v)] else []
  | none => []

/-- Conditions/bindings of a range descriptor, in source order gt, gte, lt,
lte (lines 207-222 / 332-347). -/
def rangePairs (key ph : String) (g1 g2 l1 l2 : Option Val) : List CondBind :=
  optPair key Op.gt (ph ++ "GT") g1 ++ optPair key Op.gte (ph ++ "GTE") g2 ++
    optPair key Op.lt (ph ++ "LT") l1 ++ optPair key Op.lte (ph ++ "LTE") l2

/-- Message-store equality values: booleans are stored as strings, so a
boolean scalar is compared against its string form (line 351); other scalars
are bound unchanged. -/
def msEqVal : Val → Val
  | Val.b true => Val.s "true"
  | Val.b false => Val.s "false"
  | v => v

/-- Conditions/bindings the message store generates for one key of the
`i`-th filter group (lines 325-353): placeholder names embed the renamed key
and the group index. -/
def msKeyPairs (i : Nat) (kv : String × FilterVal) : List CondBind :=
  let key := renameMS kv.1
  match kv.2 with
  | FilterVal.range g1 g2 l1 l2 => rangePairs key (":x" ++ key ++ toString i) g1 g2 l1 l2
  | FilterVal.scalar v => [(⟨key, Op.eq, ":x" ++ key ++ toString i ++ "EQ"⟩, msEqVal v)]

/-- All conditions/bindings of the `i`-th message-store filter group. -/
def msGroupPairs (i : Nat) (g : FilterGroup) : List CondBind :=
  (g.map (msKeyPairs i)).flatten

/-- Condition/binding lists of all groups, with the running `entries()`
index (line 320). -/
def msGroupsFrom (i : Nat) : List FilterGroup → List (List CondBind)
  | [] => []
  | g :: gs => msGroupPairs i g :: msGroupsFrom (i + 1) gs

/-- The `ExpressionAttributeValues` table in insertion order (a later
assignment to the same placeholder shadows an earlier one). -/
def bindsOf (gps : List (List CondBind)) : List (String × Val) :=
  gps.flatten.map (fun p => (p.1.placeholder, p.2))

/-- Message-store filter translation (lines 316-368): a group whose
condition list is empty is not pushed onto the OR-list (line 356). -/
def msTranslate (fs : List FilterGroup) : List (List Cond) × List (String × Val) :=
  let gps := msGroupsFrom 0 fs
  ((gps.filter (fun ps => !ps.isEmpty)).map (fun ps => ps.map (fun p => p.1)), bindsOf gps)

/-- Conditions/bindings the event log generates for one key of a filter
group (part_001 lines 201-227).  The object/scalar test reads the value at
the renamed key (`filter[key]`, line 205), while the equality fallback
stringifies the original entry (`filter[keyRaw].toString()`, line 225);
placeholder names carry no group index. -/
def elKeyPairs (g : FilterGroup) (kv : String × FilterVal) : List CondBind :=
  let key := renameEL kv.1
  match groupGet g key with
  | some (FilterVal.range g1 g2 l1 l2) => rangePairs key (":x" ++ key) g1 g2 l1 l2
  | _ => [(⟨key, Op.eq, ":x" ++ key ++ "EQ"⟩, Val.s (fvToString kv.2))]

/-- All conditions/bindings of one event-log filter group. -/
def elGroupPairs (g : FilterGroup) : List CondBind :=
  (g.map (elKeyPairs g)).flatten

/-- Event-log filter translation (lines 196-229): every group, even one with
zero conditions, is pushed onto the OR-list (line 228). -/
def elTranslate (fs : List FilterGroup) : List (List Cond) × List (String × Val) :=
  let gps := fs.map elGroupPairs
  (gps.map (fun ps => ps.map (fun p => p.1)), bindsOf gps)

/-- Lookup in `ExpressionAttributeValues`: a JS object keyed by placeholder,
so the last assignment to a placeholder wins. -/
def bindLookup (bs : List (String × Val)) (ph : String) : Option Val :=
  (bs.reverse.find? (fun bv => decide (bv.1 = ph))).map (fun bv => bv.2)

/-- DynamoDB comparison semantics for one operator: equality is typed,
ordered comparison applies to two numbers or two strings, and any type
mismatch makes the condition false. -/
def valCmp : Op → Val → Val → Bool
  | Op.eq, a, v => decide (a = v)
  | Op.gt, Val.n a, Val.n v => decide (v < a)
  | Op.gt, Val.s a, Val.s v => strLt v a
  | Op.gte, Val.n a, Val.n v => decide (v ≤ a)
  | Op.gte, Val.s a, Val.s v => strLt v a || decide (a = v)
  | Op.lt, Val.n a, Val.n v => decide (a < v)
  | Op.lt, Val.s a, Val.s v => strLt a v
  | Op.lte, Val.n a, Val.n v => decide (a ≤ v)
  | Op.lte, Val.s a, Val.s v => strLt a v || decide (a = v)
  | _, _, _ => false

/-- One condition of a filter expression, evaluated against a record through
the bindings table; a missing attribute or an unbound placeholder never
matches. -/
def evalCond (bs : List (String × Val)) (r : DbRecord) (c : Cond) : Bool :=
  match getAttr r c.attr, bindLookup bs c.placeholder with
  | some a, some v => valCmp c.op a v
  | _, _ => false

/-- A generated filter expression: disjunction of groups, conjunction inside
a group; an empty OR-list means no `FilterExpression` is attached and
everything matches (`if (filterExp)`, line 247 / 366). -/
def evalFilter (groups : List (List Cond)) (bs : List (String × Val)) (r : DbRecord) : Bool :=
  if groups.isEmpty then true else groups.any (fun g => g.all (evalCond bs r))

/-- Source text of one generated condition. -/
def condStr (c : Cond) : String :=
  c.attr ++ (match c.op with
    | Op.gt => " > " | Op.gte => " >= " | Op.lt => " < "
    | Op.lte => " <= " | Op.eq => " = ") ++ c.placeholder

/-- One OR-list entry: `'(' + conditions.join(' AND ') + ')'` (line 228 / 357). -/
def groupStr (g : List Cond) : String :=
  "(" ++ String.intercalate " AND " (g.map condStr) ++ ")"

/-- The whole `FilterExpression`: `filterDynamoDB.join(' OR ')` (line 234 / 365). -/
def filterExpStr (groups : List (List Cond)) : String :=
  String.intercalate " OR " (groups.map groupStr)

/-- `cursorInputSort` (lines 583-585): when `pagination.limit` is truthy the
query requests `limit * filters.length + 1` items; otherwise no `Limit` is
set. -/
def requestedLimit (numFilters : Nat) (limit : Option Nat) : Option Nat :=
  match limit with
  | some l => if l = 0 then none else some (l * numFilters + 1)
  | none => none

/-- `processPaginationResults` (lines 509-533): when more than `limit` items
came back, the result is cut to `limit` items and a cursor is built from the
last item of the cut result; otherwise no cursor is emitted. -/
def processPaginationResults (results : List DbRecord) (limit : Option Nat) :
    List DbRecord × Option DbRecord :=
  match limit with
  | some l =>
      if l < results.length then (results.take l, (results.take l).getLast?)
      else (results, none)
  | none => (results, none)

/-- Items of the tenant partition strictly after an exclusive start key,
under the index ordered by `keyOf`. -/
def afterKey (keyOf : DbRecord → String) (k : Option String) (table : List DbRecord) :
    List DbRecord :=
  match k with
  | none => table
  | some key => table.filter (fun it => strLt key (keyOf it))

/-- One backend query round-trip: range restriction by the exclusive start
key, then the result-size cap, then the post-fetch filter expression. -/
def ddbQueryPage (keyOf : DbRecord → String) (p : DbRecord → Bool) (table : List DbRecord)
    (start : Option String) (lim : Option Nat) : List DbRecord :=
  let ranged := afterKey keyOf start table
  (match lim with | some m => ranged.take m | none => ranged).filter p

/-- `MessageStoreDynamoDB.query` for one page (lines 297-400): `table` is the
chosen sort index (ascending), `p` the translated filter expression,
`numFilters` the filter-group count and `cursor` the decoded pagination
cursor, i.e. the last previously returned item. -/
def msQueryModel (keyOf : DbRecord → String) (p : DbRecord → Bool) (table : List DbRecord)
    (numFilters : Nat) (limit : Option Nat) (cursor : Option DbRecord) :
    List DbRecord × Option DbRecord :=
  let items := ddbQueryPage keyOf p table (cursor.map keyOf) (requestedLimit numFilters limit)
  processPaginationResults items limit

/-- Re-issuing the query with each returned cursor until a page carries no
cursor; `none` when the fuel runs out before that happens. -/
def msPaginate (keyOf : DbRecord → String) (p : DbRecord → Bool) (table : List DbRecord)
    (numFilters l : Nat) : Nat → Option DbRecord → Option (List (List DbRecord))
  | 0, _ => none
  | fuel + 1, c =>
    match msQueryModel keyOf p table numFilters (some l) c with
    | (page, none) => some [page]
    | (page, some it) =>
        (msPaginate keyOf p table numFilters l fuel (some it)).map (fun ps => page :: ps)

/-- A strictly sorted index: keys are pairwise strictly increasing. -/
def strictSorted (keyOf : DbRecord → String) (table : List DbRecord) : Prop :=
  table.Pairwise (fun a b => strLt (keyOf a) (keyOf b) = true)

/-- The `'S'` member of a marshalled attribute, as read by
`input.Item[prop].S + input.Item['messageCid'].S` (line 219): `.S` of a
non-string attribute is `undefined`, which string-concatenates as the text
`undefined`. -/
def marshS : Val → String
  | Val.s v => v
  | _ => "undefined"

/-- Composite sort key: source attribute value concatenated with the message
content id, no separator (lines 217-226). -/
def compositeSortKey (v cid : String) : String := v ++ cid

/-- JS object assignment `item[k] = v`. -/
def recSet (r : DbRecord) (k : String) (v : Val) : DbRecord :=
  r.filter (fun kv => !(decide (kv.1 = k))) ++ [(k, v)]

/-- One derived sort attribute: written only when the source attribute is on
the item (lines 218-226), from the item's own `messageCid` attribute. -/
def addSortAttrOn (item : DbRecord) (prop : String) : DbRecord :=
  match getAttr item prop with
  | some v =>
      let cid := match getAttr item "messageCid" with
        | some c => marshS c
        | none => "undefined"
      recSet item (prop ++ "Sort") (Val.s (compositeSortKey (marshS v) cid))
  | none => item

/-- Whether the second character list starts with the first. -/
def charsLead : List Char → List Char → Bool
  | [], _ => true
  | _ :: _, [] => false
  | a :: as, b :: bs => decide (a = b) && charsLead as bs

/-- `s.startsWith pre`, executable on character data. -/
def strStarts (s pre : String) : Bool := charsLead pre.data s.data

/-- Modelled from the spec: `extractTagsAndSanitizeIndexes`
(`./utils/sanitize.js`, a source file missing from the repository snapshot)
splits tag-style attributes out of the caller-supplied index map; the stores
then spread both parts back into one flat item. -/
def extractTagsAndSanitizeIndexes (indexes : DbRecord) : DbRecord × DbRecord :=
  (indexes.filter (fun kv => !(strStarts kv.1 "tag")),
   indexes.filter (fun kv => strStarts kv.1 "tag"))

/-- Modelled from the spec: `replaceReservedWords` (`./utils/sanitize.js`,
missing from the snapshot) renames reserved attribute names through the same
fixed table the query translators use. -/
def replaceReservedWords (indexes : DbRecord) : DbRecord :=
  indexes.map (fun kv => (renameEL kv.1, kv.2))

/-- JS object spread: later fields overwrite earlier ones. -/
def recMerge (r add : DbRecord) : DbRecord :=
  add.foldl (fun acc kv => recSet acc kv.1 kv.2) r

/-- The item built by `MessageStoreDynamoDB.put` (lines 200-232), without
the opaque encoded message bytes, on which no claim depends. -/
def msPutItem (tenant messageCid : String) (indexes : DbRecord) : DbRecord :=
  let st := extractTagsAndSanitizeIndexes indexes
  let fixIndexes := replaceReservedWords st.1
  let base :=
    recMerge (recMerge [("tenant", Val.s tenant), ("messageCid", Val.s messageCid)] st.2)
      fixIndexes
  let b1 := addSortAttrOn base "dateCreated"
  let b2 := addSortAttrOn b1 "datePublished"
  addSortAttrOn b2 "messageTimestamp"

/-- `PutItemCommand` replaces the item stored under the same
`(tenant, messageCid)` key. -/
def msStorePut (store : List DbRecord) (item : DbRecord) : List DbRecord :=
  store.filter (fun r =>
    !(decide (getAttr r "tenant" = getAttr item "tenant" ∧
        getAttr r "messageCid" = getAttr item "messageCid"))) ++ [item]

/-- Ascending insertion into an index ordered by `keyOf`. -/
def insertByKey (keyOf : DbRecord → String) (x : DbRecord) : List DbRecord → List DbRecord
  | [] => [x]
  | y :: ys => if strLt (keyOf y) (keyOf x) then y :: insertByKey keyOf x ys else x :: y :: ys

/-- An index list sorted ascending by `keyOf`. -/
def sortByKey (keyOf : DbRecord → String) : List DbRecord → List DbRecord
  | [] => []
  | x :: xs => insertByKey keyOf x (sortByKey keyOf xs)

/-- The composite range key of a sort index. -/
def sortKeyOf (prop : String) (r : DbRecord) : String :=
  match getAttr r (prop ++ "Sort") with
  | some (Val.s v) => v
  | _ => ""

/-- The global secondary index for one sort property: sparse (items without
the composite attribute are absent) and ordered ascending by it. -/
def msIndex (store : List DbRecord) (prop : String) : List DbRecord :=
  sortByKey (sortKeyOf prop) (store.filter (fun r => (getAttr r (prop ++ "Sort")).isSome))

/-- One event-log item as projected by the `watermark` secondary index. -/
structure ELEvent where
  tenant : String
  messageCid : String
  watermark : Nat
deriving DecidableEq, Repr

/-- The record view of an event used by filter expressions. -/
def elEventRecord (e : ELEvent) : DbRecord :=
  [("tenant", Val.s e.tenant), ("messageCid", Val.s e.messageCid),
   ("watermark", Val.n (Int.ofNat e.watermark))]

/-- `queryEvents` cursors (lines 251-268): the serialized key of the last
returned item, or the constant `{messageCid: "", value: -1}` returned on the
failure path (line 283). -/
inductive ELCursor where
  | fromItem (tenant messageCid : String) (watermark : Nat)
  | failure
deriving DecidableEq, Repr

inductive DbError where
  | unavailable
  | badCursor
  | malformedFilter
deriving DecidableEq, Repr

/-- Ascending insertion by watermark: the `watermark` index is scanned
ascending (`ScanIndexForward: true`, line 244). -/
def insertByWatermark (x : ELEvent) : List ELEvent → List ELEvent
  | [] => [x]
  | y :: ys => if y.watermark < x.watermark then y :: insertByWatermark x ys else x :: y :: ys

def sortByWatermark : List ELEvent → List ELEvent
  | [] => []
  | x :: xs => insertByWatermark x (sortByWatermark xs)

/-- Decoding `params['ExclusiveStartKey'] = JSON.parse(cursor.messageCid)`
(line 252): the failure cursor holds the empty string, which is not JSON. -/
def elDecodeCursor : Option ELCursor → Except DbError (Option Nat)
  | none => Except.ok none
  | some (ELCursor.fromItem _ _ w) => Except.ok (some w)
  | some ELCursor.failure => Except.error DbError.badCursor

/-- An event-log filter expression is syntactically valid only when no
pushed group is empty: an empty group renders as `()`, which the backend
rejects as a malformed expression. -/
def elWellformedFilters (fs : List FilterGroup) : Bool :=
  fs.isEmpty || fs.all (fun g => !(elGroupPairs g).isEmpty)

/-- The items a `queryEvents` round-trip returns: the tenant partition of
the watermark index, ascending, strictly after the exclusive start key,
post-filtered by the translated expression; no `Limit` is ever set
(lines 236-245). -/
def elQueryItems (evs : List ELEvent) (tenant : String) (fs : List FilterGroup)
    (start : Option Nat) : List ELEvent :=
  ((sortByWatermark (evs.filter (fun e => decide (e.tenant = tenant)))).filter
      (fun e => match start with | none => true | some w => decide (w < e.watermark))).filter
    (fun e => evalFilter (elTranslate fs).1 (elTranslate fs).2 (elEventRecord e))

/-- `queryEvents` (lines 179-284) up to its catch block: returns the message
cids and a cursor built from the last item whenever at least one item came
back, and passes the caller's cursor through otherwise (lines 259-276). -/
def elQueryEventsTry (evs : List ELEvent) (tenant : String) (fs : List FilterGroup)
    (cursor : Option ELCursor) : Except DbError (List String × Option ELCursor) :=
  if !elWellformedFilters fs then Except.error DbError.malformedFilter
  else
    match elDecodeCursor cursor with
    | Except.error e => Except.error e
    | Except.ok start =>
      match (elQueryItems evs tenant fs start).getLast? with
      | some last =>
          Except.ok ((elQueryItems evs tenant fs start).map (fun e => e.messageCid),
            some (ELCursor.fromItem last.tenant last.messageCid last.watermark))
      | none => Except.ok ((elQueryItems evs tenant fs start).map (fun e => e.messageCid), cursor)

/-- `queryEvents` with its catch block (lines 279-283): every error is
logged and the constant empty result with the failure cursor is returned. -/
def elQueryEventsRun (backendOk : Bool) (evs : List ELEvent) (tenant : String)
    (fs : List FilterGroup) (cursor : Option ELCursor) :
    Except DbError (List String × Option ELCursor) :=
  match (if backendOk then elQueryEventsTry evs tenant fs cursor
         else Except.error DbError.unavailable) with
  | Except.ok r => Except.ok r
  | Except.error _ => Except.ok ([], some ELCursor.failure)

/-- One item of the `eventLog` table: the attributes the append path writes
(`count` on counter items, `watermark` on event items; the other indexes do
not matter to the claims). -/
structure ELItem where
  count : Option Nat
  watermark : Option Nat
deriving DecidableEq, Repr

/-- Keys of the `eventLog` table: partition `tenant`, range `messageCid`. -/
abbrev ELKey := String × String

/-- The single `eventLog` table holds both counter items and event items. -/
abbrev ELTable := List (ELKey × ELItem)

def tblGet (tbl : ELTable) (k : ELKey) : Option ELItem :=
  (tbl.find? (fun e => decide (e.1 = k))).map (fun e => e.2)

/-- `PutItemCommand`: replaces the whole item stored under the key. -/
def tblPut (tbl : ELTable) (k : ELKey) (v : ELItem) : ELTable :=
  tbl.filter (fun e => !(decide (e.1 = k))) ++ [(k, v)]

/-- The counter record key of a tenant:
`{tenant: tenant + '_counter', messageCid: 'counter'}` (line 131). -/
def counterKey (tenant : String) : ELKey := (tenant ++ "_counter", "counter")

/-- The current counter value of a tenant (0 when absent). -/
def counterVal (tbl : ELTable) (tenant : String) : Nat :=
  ((tblGet tbl (counterKey tenant)).bind (fun it => it.count)).getD 0

/-- `UpdateItemCommand` with
`SET #count = if_not_exists(#count, :start) + :incr` (lines 129-142): an
atomic conditional increment that preserves the item's other attributes and
returns the new value. -/
def elIncrement (tbl : ELTable) (tenant : String) : ELTable × Nat :=
  let k := counterKey tenant
  let old := (tblGet tbl k).getD ⟨none, none⟩
  let w := old.count.getD 0 + 1
  (tblPut tbl k ⟨some w, old.watermark⟩, w)

/-- `append` (lines 116-168) happy path: increment the tenant counter, then
put the event item carrying the new watermark. -/
def elAppendStep (tbl : ELTable) (tenant messageCid : String) : ELTable × Nat :=
  let r := elIncrement tbl tenant
  (tblPut r.1 (tenant, messageCid) ⟨none, some r.2⟩, r.2)

/-- A sequence of appends, returning the final table and, per append, the
tenant and the watermark the event received. -/
def elRunTrace : ELTable → List (String × String) → ELTable × List (String × Nat)
  | tbl, [] => (tbl, [])
  | tbl, op :: ops =>
    let r := elAppendStep tbl op.1 op.2
    let q := elRunTrace r.1 ops
    (q.1, (op.1, r.2) :: q.2)

/-- The watermarks allocated to one tenant, in append order. -/
def tenantTrace (t : String) (tr : List (String × Nat)) : List Nat :=
  tr.filterMap (fun e => if e.1 = t then some e.2 else none)

/-- The number of appends for one tenant in an operation list. -/
def appendCount (t : String) (ops : List (String × String)) : Nat :=
  (ops.filter (fun o => decide (o.1 = t))).length

/-- The watermarks of the stored events of one tenant. -/
def tenantWatermarks (tbl : ELTable) (t : String) : List Nat :=
  tbl.filterMap (fun e => if e.1.1 = t then e.2.watermark else none)

/-- An append is key-safe when its event item cannot land on a counter
record key: it does not combine a tenant of the form `s ++ "_counter"` with
the literal message cid `counter`. -/
def safeOp (op : String × String) : Prop :=
  (∀ s, op.1 ≠ s ++ "_counter") ∨ op.2 ≠ "counter"

/-- `append` with its catch block (lines 127-167): the counter
`UpdateItemCommand` and the event `PutItemCommand` are two sequential
backend calls inside one try block; `okInc` and `okPut` say which of the
two succeeds. Every backend error is logged and swallowed, so the caller
sees a successful completion and the table holds whatever the calls before
the failure produced: nothing when the increment itself failed, the
advanced counter alone when the event put failed after a successful
increment. -/
def elAppendRun (okInc okPut : Bool) (tbl : ELTable) (tenant messageCid : String) :
    Except DbError ELTable :=
  match (if okInc then Except.ok (elIncrement tbl tenant)
         else Except.error DbError.unavailable) with
  | Except.error _ => Except.ok tbl
  | Except.ok r =>
      match (if okPut then Except.ok (tblPut r.1 (tenant, messageCid) ⟨none, some r.2⟩)
             else Except.error DbError.unavailable) with
      | Except.ok tbl2 => Except.ok tbl2
      | Except.error _ => Except.ok r.1

/-- `MessageStoreDynamoDB.put` lines 234-240: the `PutItemCommand` send is
wrapped in try/catch and the catch only logs. -/
def msPutRun (backendOk : Bool) (store : List DbRecord) (tenant messageCid : String)
    (indexes : DbRecord) : Except DbError (List DbRecord) :=
  match (if backendOk then Except.ok (msStorePut store (msPutItem tenant messageCid indexes))
         else Except.error DbError.unavailable) with
  | Except.ok s => Except.ok s
  | Except.error _ => Except.ok store

/-- `MessageStoreDynamoDB.query` lines 396-399: the catch logs the error and
rethrows it. -/
def msQueryRun (backendOk : Bool) (keyOf : DbRecord → String) (p : DbRecord → Bool)
    (table : List DbRecord) (numFilters : Nat) (limit : Option Nat)
    (cursor : Option DbRecord) : Except DbError (List DbRecord × Option DbRecord) :=
  match (if backendOk then Except.ok (msQueryModel keyOf p table numFilters limit cursor)
         else Except.error DbError.unavailable) with
  | Except.ok r => Except.ok r
  | Except.error e => Except.error e

/-- One item of the `resumableTasks` table: `retryCount` is kept as a raw
attribute value, since `register` writes it with type `S` (lines 136-138)
while `read` and `grab` parse the `N` member. -/
structure TaskItem where
  taskid : String
  timeout : Nat
  task : String
  retryCount : Val
deriving DecidableEq, Repr

/-- A `ManagedResumableTask` as returned to callers. -/
structure ManagedTask where
  id : String
  task : String
  retryCount : Nat
  timeout : Nat
deriving DecidableEq, Repr

/-- `parseInt(item.retryCount.N ?? '0')` (lines 210, 249): the `N` member of
a string-typed attribute is `undefined`, so anything but a number attribute
parses as 0. -/
def parseRetryCount : Val → Nat
  | Val.n v => v.toNat
  | _ => 0

def taskGet (st : List TaskItem) (id : String) : Option TaskItem :=
  st.find? (fun it => decide (it.taskid = id))

/-- `DeleteItemCommand` by task id (lines 297-311). -/
def taskDelete (st : List TaskItem) (id : String) : List TaskItem :=
  st.filter (fun it => !(decide (it.taskid = id)))

/-- `PutItemCommand`: replaces the item stored under the same task id. -/
def taskPut (st : List TaskItem) (it : TaskItem) : List TaskItem :=
  taskDelete st it.taskid ++ [it]

/-- `register` (lines 112-151): stores the task with
`retryCount: {S: '0'}` — a string-typed attribute — and returns the plain
object with `retryCount: 0`. -/
def register (st : List TaskItem) (id task : String) (now timeoutInSeconds : Nat) :
    List TaskItem × ManagedTask :=
  let timeout := now + timeoutInSeconds * 1000
  (taskPut st ⟨id, timeout, task, Val.s (toString (0 : Nat))⟩, ⟨id, task, 0, timeout⟩)

/-- `read` (lines 223-251). -/
def readTask (st : List TaskItem) (id : String) : Option ManagedTask :=
  (taskGet st id).map (fun it => ⟨it.taskid, it.task, parseRetryCount it.retryCount, it.timeout⟩)

/-- The fixed visibility window (line 27). -/
def taskTimeoutInSeconds : Nat := 60

/-- Ascending insertion by stored timeout, modelling the `timeout` secondary
index. -/
def insertByTimeout (x : TaskItem) : List TaskItem → List TaskItem
  | [] => [x]
  | y :: ys => if y.timeout < x.timeout then y :: insertByTimeout x ys else x :: y :: ys

def sortByTimeout : List TaskItem → List TaskItem
  | [] => []
  | x :: xs => insertByTimeout x (sortByTimeout xs)

/-- The query of `grab` (lines 162-176): tasks with `timeout <= now`, read
off the `timeout` index ascending, capped at `count` by `Limit: count`. -/
def grabSelect (st : List TaskItem) (now count : Nat) : List TaskItem :=
  ((sortByTimeout st).filter (fun it => decide (it.timeout ≤ now))).take count

/-- The delete-then-reinsert loop of `grab` (lines 181-204): each selected
task is deleted and put back with the refreshed timeout, its `task` and
`retryCount` attributes copied verbatim. -/
def grabFold (st : List TaskItem) (selected : List TaskItem) (newTimeout : Nat) :
    List TaskItem :=
  selected.foldl
    (fun s it => taskPut (taskDelete s it.taskid) ⟨it.taskid, newTimeout, it.task, it.retryCount⟩) st

/-- `grab` (lines 153-221) happy path: returns the selected tasks carrying
the new timeout `now + 60 * 1000` and the updated table. -/
def grab (st : List TaskItem) (now count : Nat) : List ManagedTask × List TaskItem :=
  let newTimeout := now + taskTimeoutInSeconds * 1000
  let selected := grabSelect st now count
  (selected.map (fun it => ⟨it.taskid, it.task, parseRetryCount it.retryCount, newTimeout⟩),
   grabFold st selected newTimeout)

/-- `grab` with its catch block (lines 216-220): any error is logged and an
empty task list is returned. -/
def grabRun (backendOk : Bool) (st : List TaskItem) (now count : Nat) :
    Except DbError (List ManagedTask) :=
  match (if backendOk then Except.ok (grab st now count) else Except.error DbError.unavailable) with
  | Except.ok r => Except.ok r.1
  | Except.error _ => Except.ok []

/-! ### Order lemmas for the lexicographic key order -/

theorem lexLt_irrefl : ∀ as : List Char, lexLt as as = false
  | [] => rfl
  | a :: as => by simp [lexLt, lexLt_irrefl as]

theorem strLt_irrefl (s : String) : strLt s s = false := lexLt_irrefl s.data

theorem lexLt_asymm : ∀ as bs : List Char, lexLt as bs = true → lexLt bs as = false
  | [], [] => by simp [lexLt]
  | [], _ :: _ => by simp [lexLt]
  | _ :: _, [] => by simp [lexLt]
  | a :: as, b :: bs => by
    simp only [lexLt]
    by_cases h1 : a < b
    · intro _
      rw [if_neg (lt_asymm h1), if_pos h1]
    · by_cases h2 : b < a
      · intro hc
        rw [if_neg h1, if_pos h2] at hc
        exact absurd hc Bool.false_ne_true
      · intro hc
        rw [if_neg h1, if_neg h2] at hc
        rw [if_neg h2, if_neg h1]
        exact lexLt_asymm as bs hc

theorem strLt_asymm {a b : String} (h : strLt a b = true) : strLt b a = false :=
  lexLt_asymm _ _ h

theorem lexLt_trans : ∀ as bs cs : List Char,
    lexLt as bs = true → lexLt bs cs = true → lexLt as cs = true
  | [], [], _ => by simp [lexLt]
  | [], _ :: _, [] => by intro _ h2; simp [lexLt] at h2
  | [], _ :: _, _ :: _ => by intro _ _; simp [lexLt]
  | _ :: _, [], _ => by intro h1; simp [lexLt] at h1
  | _ :: _, _ :: _, [] => by intro _ h2; simp [lexLt] at h2
  | a :: as, b :: bs, c :: cs => by
    simp only [lexLt]
    intro h1 h2
    rcases lt_trichotomy a b with hab | hab | hab
    · rcases lt_trichotomy b c with hbc | hbc | hbc
      · rw [if_pos (lt_trans hab hbc)]
      · subst hbc; rw [if_pos hab]
      · rw [if_neg (lt_asymm hbc), if_pos hbc] at h2
        exact absurd h2 Bool.false_ne_true
    · subst hab
      rcases lt_trichotomy a c with hac | hac | hac
      · rw [if_pos hac]
      · subst hac
        rw [if_neg (lt_irrefl a), if_neg (lt_irrefl a)] at h1 h2 ⊢
        exact lexLt_trans as bs cs h1 h2
      · rw [if_neg (lt_asymm hac), if_pos hac] at h2
        exact absurd h2 Bool.false_ne_true
    · rw [if_neg (lt_asymm hab), if_pos hab] at h1
      exact absurd h1 Bool.false_ne_true

theorem strLt_trans {a b c : String} (h1 : strLt a b = true) (h2 : strLt b c = true) :
    strLt a c = true :=
  lexLt_trans _ _ _ h1 h2

theorem lexLt_append_left : ∀ v a b : List Char, lexLt (v ++ a) (v ++ b) = lexLt a b
  | [], _, _ => rfl
  | c :: cs, a, b => by simp [lexLt, lexLt_append_left cs a b]

/-- Appending a common proper value in front of two content ids preserves the
lexicographic comparison: the composite key breaks ties by content id. -/
theorem strLt_append_left (v a b : String) : strLt (v ++ a) (v ++ b) = strLt a b := by
  unfold strLt
  rw [String.data_append v a, String.data_append v b]
  exact lexLt_append_left v.data a.data b.data

/-! ### Association-list lemmas -/

theorem find?_filter_of_imp {α : Type} {p q : α → Bool}
    (l : List α) (h : ∀ x, p x = true → q x = true) :
    (l.filter q).find? p = l.find? p := by
  induction l with
  | nil => rfl
  | cons a as ih =>
    rw [List.filter_cons]
    by_cases hp : p a = true
    · rw [if_pos (h a hp), List.find?_cons_of_pos _ hp, List.find?_cons_of_pos _ hp]
    · by_cases hq : q a = true
      · rw [if_pos hq, List.find?_cons_of_neg _ hp, List.find?_cons_of_neg _ hp, ih]
      · rw [if_neg hq, List.find?_cons_of_neg _ hp, ih]

theorem tblGet_tblPut (tbl : ELTable) (k k' : ELKey) (v : ELItem) :
    tblGet (tblPut tbl k v) k' = if k' = k then some v else tblGet tbl k' := by
  unfold tblGet tblPut
  rw [List.find?_append]
  by_cases h : k' = k
  · subst h
    have hnone : (tbl.filter (fun e => !(decide (e.1 = k')))).find?
        (fun e => decide (e.1 = k')) = none := by
      rw [List.find?_eq_none]
      intro e he
      have h2 := (List.mem_filter.mp he).2
      simp only [Bool.not_eq_eq_eq_not, Bool.not_true, decide_eq_false_iff_not] at h2
      simp [h2]
    rw [hnone, Option.none_or, List.find?_cons_of_pos _ (by simp)]
    simp
  · have h1 : List.find? (fun e => decide (e.1 = k')) [(k, v)] = none := by
      rw [List.find?_cons_of_neg _ (by simp; exact fun hh => h hh.symm), List.find?_nil]
    rw [h1, Option.or_none, find?_filter_of_imp tbl (fun e hp => by
      have h3 : e.1 = k' := of_decide_eq_true hp
      simp [h3]
      exact h), if_neg h]

theorem getAttr_recSet (r : DbRecord) (k k' : String) (v : Val) :
    getAttr (recSet r k v) k' = if k' = k then some v else getAttr r k' := by
  unfold getAttr recSet
  rw [List.find?_append]
  by_cases h : k' = k
  · subst h
    have hnone : (r.filter (fun kv => !(decide (kv.1 = k')))).find?
        (fun kv => decide (kv.1 = k')) = none := by
      rw [List.find?_eq_none]
      intro e he
      have h2 := (List.mem_filter.mp he).2
      simp only [Bool.not_eq_eq_eq_not, Bool.not_true, decide_eq_false_iff_not] at h2
      simp [h2]
    rw [hnone, Option.none_or, List.find?_cons_of_pos _ (by simp)]
    simp
  · have h1 : List.find? (fun kv => decide (kv.1 = k')) [(k, v)] = none := by
      rw [List.find?_cons_of_neg _ (by simp; exact fun hh => h hh.symm), List.find?_nil]
    rw [h1, Option.or_none, find?_filter_of_imp r (fun e hp => by
      have h3 : e.1 = k' := of_decide_eq_true hp
      simp [h3]
      exact h), if_neg h]

theorem taskGet_taskPut (st : List TaskItem) (it : TaskItem) (id : String) :
    taskGet (taskPut st it) id = if id = it.taskid then some it else taskGet st id := by
  unfold taskGet taskPut taskDelete
  rw [List.find?_append]
  by_cases h : id = it.taskid
  · subst h
    have hnone : (st.filter (fun x => !(decide (x.taskid = it.taskid)))).find?
        (fun x => decide (x.taskid = it.taskid)) = none := by
      rw [List.find?_eq_none]
      intro e he
      have h2 := (List.mem_filter.mp he).2
      simp only [Bool.not_eq_eq_eq_not, Bool.not_true, decide_eq_false_iff_not] at h2
      simp [h2]
    rw [hnone, Option.none_or, List.find?_cons_of_pos _ (by simp), if_pos rfl]
  · have h1 : List.find? (fun x => decide (x.taskid = id)) [it] = none := by
      rw [List.find?_cons_of_neg _ (by simp; exact fun hh => h hh.symm), List.find?_nil]
    rw [h1, Option.or_none, find?_filter_of_imp st (fun e hp => by
      have h3 : e.taskid = id := of_decide_eq_true hp
      simp [h3]
      exact h), if_neg h]

theorem taskGet_taskDelete (st : List TaskItem) (id id' : String) :
    taskGet (taskDelete st id) id' = if id' = id then none else taskGet st id' := by
  unfold taskGet taskDelete
  by_cases h : id' = id
  · subst h
    rw [if_pos rfl, List.find?_eq_none]
    intro e he
    have h2 := (List.mem_filter.mp he).2
    simp only [Bool.not_eq_eq_eq_not, Bool.not_true, decide_eq_false_iff_not] at h2
    simp [h2]
  · rw [if_neg h, find?_filter_of_imp st (fun e hp => by
      have h3 : e.taskid = id' := of_decide_eq_true hp
      simp [h3]
      exact h)]

theorem mem_insertByTimeout {x y : TaskItem} : ∀ {l : List TaskItem},
    x ∈ insertByTimeout y l → x = y ∨ x ∈ l
  | [], h => by simpa [insertByTimeout] using h
  | z :: zs, h => by
    unfold insertByTimeout at h
    by_cases hc : z.timeout < y.timeout
    · rw [if_pos hc] at h
      rcases List.mem_cons.mp h with h | h
      · exact Or.inr (h ▸ List.mem_cons_self z zs)
      · rcases mem_insertByTimeout h with h | h
        · exact Or.inl h
        · exact Or.inr (List.mem_cons_of_mem z h)
    · rw [if_neg hc] at h
      rcases List.mem_cons.mp h with h | h
      · exact Or.inl h
      · exact Or.inr h

theorem mem_sortByTimeout {x : TaskItem} : ∀ {l : List TaskItem},
    x ∈ sortByTimeout l → x ∈ l
  | [], h => by simpa [sortByTimeout] using h
  | z :: zs, h => by
    unfold sortByTimeout at h
    rcases mem_insertByTimeout h with h | h
    · exact h ▸ List.mem_cons_self z zs
    · exact List.mem_cons_of_mem z (mem_sortByTimeout h)

theorem grabSelect_subset {st : List TaskItem} {now count : Nat} :
    ∀ x ∈ grabSelect st now count, x ∈ st := by
  intro x hx
  have h1 := List.mem_of_mem_take hx
  exact mem_sortByTimeout (List.mem_filter.mp h1).1

/-! ### Claim C7: error handling of the write paths -/

/-- C7 counterexample: the claim says a backend failure during the event
log's `append` or the message store's `put` propagates a hard failure; in
fact both catch blocks only log, the operations complete successfully and
the event write is dropped — and a failed event put after a successful
increment still leaves the counter advanced. -/
theorem C7_counterexample :
    elAppendRun false false [] "did:alice" "cid1" = Except.ok [] ∧
    elAppendRun true false [] "did:alice" "cid1" =
      Except.ok [(counterKey "did:alice", ⟨some 1, none⟩)] ∧
    msPutRun false [] "did:alice" "cid1" [] = Except.ok [] :=
  ⟨rfl, rfl, rfl⟩

/-- C7 (amended): a backend failure during the event log's `append` or the
message store's `put` is caught and logged and the operation completes
without an error, with the event write dropped. A failed counter increment
leaves the event-log table unchanged; a failed event put after a successful
increment leaves the counter advanced (a watermark gap) with no event
stored; a failed message-store put leaves the store unchanged. Only fully
successful calls perform the complete write. -/
theorem C7_writeErrorsSwallowed_amended (tbl : ELTable) (t c : String) (b : Bool)
    (store : List DbRecord) (tenant cid : String) (idx : DbRecord) :
    elAppendRun false b tbl t c = Except.ok tbl ∧
    elAppendRun true false tbl t c = Except.ok (elIncrement tbl t).1 ∧
    elAppendRun true true tbl t c = Except.ok (elAppendStep tbl t c).1 ∧
    msPutRun false store tenant cid idx = Except.ok store ∧
    msPutRun true store tenant cid idx =
      Except.ok (msStorePut store (msPutItem tenant cid idx)) :=
  ⟨rfl, rfl, rfl, rfl, rfl⟩

/-! ### Claim C8: error handling of the read paths -/

/-- C8 counterexample: the claim says every backend error on a read/query
path is logged and converted to an empty result; the message store's
`query`, however, rethrows after logging. -/
theorem C8_counterexample :
    msQueryRun false (fun _ => "") (fun _ => true) [] 0 none none =
      Except.error DbError.unavailable :=
  rfl

/-- C8 (amended): a backend error on the event log's query path yields the
empty event list (with the constant failure cursor), and one on the task
queue's `grab` yields the empty task list; the message store's `query`
instead logs and rethrows the error. -/
theorem C8_readErrors_amended (evs : List ELEvent) (tenant : String)
    (fs : List FilterGroup) (cursor : Option ELCursor) (st : List TaskItem)
    (now count : Nat) (keyOf : DbRecord → String) (p : DbRecord → Bool)
    (table : List DbRecord) (n : Nat) (limit : Option Nat) (cur : Option DbRecord) :
    elQueryEventsRun false evs tenant fs cursor = Except.ok ([], some ELCursor.failure) ∧
    grabRun false st now count = Except.ok [] ∧
    msQueryRun false keyOf p table n limit cur = Except.error DbError.unavailable :=
  ⟨rfl, rfl, rfl⟩

/-! ### Claim C10: retryCount type mismatch -/

/-- C10: `register` persists `retryCount` as a string-typed attribute, and
`read` and `grab` parse only the number-typed member and fall back to 0, so
every read-back of a registered task reports `retryCount = 0` regardless of
the stored value. -/
theorem C10_retryCountZero :
    (∀ (st : List TaskItem) (id task : String) (now ts : Nat),
        taskGet (register st id task now ts).1 id =
          some ⟨id, now + ts * 1000, task, Val.s "0"⟩ ∧
        (register st id task now ts).2.retryCount = 0) ∧
    (∀ v : String, parseRetryCount (Val.s v) = 0) ∧
    (∀ (st : List TaskItem) (id : String) (it : TaskItem) (v : String),
        taskGet st id = some it → it.retryCount = Val.s v →
        readTask st id = some ⟨it.taskid, it.task, 0, it.timeout⟩) ∧
    (∀ (st : List TaskItem) (now count : Nat) (m : ManagedTask),
        (∀ it ∈ st, ∃ v : String, it.retryCount = Val.s v) →
        m ∈ (grab st now count).1 → m.retryCount = 0) := by
  refine ⟨?_, ?_, ?_, ?_⟩
  · intro st id task now ts
    constructor
    · show taskGet (taskPut st ⟨id, now + ts * 1000, task, Val.s (toString (0 : Nat))⟩) id = _
      rw [taskGet_taskPut, if_pos rfl]
      rfl
    · rfl
  · intro v
    rfl
  · intro st id it v hget hrc
    have h0 : parseRetryCount it.retryCount = 0 := by rw [hrc]; rfl
    simp [readTask, hget, h0]
  · intro st now count m hstr hm
    unfold grab at hm
    simp only [List.mem_map] at hm
    obtain ⟨it, hit, hme⟩ := hm
    obtain ⟨v, hv⟩ := hstr it (grabSelect_subset it hit)
    rw [← hme]
    show parseRetryCount it.retryCount = 0
    rw [hv]
    rfl

/-- C10 witness: a task stored with a string-typed `retryCount` of `"42"`
reads back as `retryCount = 0`. -/
theorem C10_retryCountZero_witness :
    readTask [⟨"t1", 99, "w", Val.s "42"⟩] "t1" = some ⟨"t1", "w", 0, 99⟩ :=
  C10_retryCountZero.2.2.1 [⟨"t1", 99, "w", Val.s "42"⟩] "t1" ⟨"t1", 99, "w", Val.s "42"⟩
    "42" rfl rfl

/-! ### Claim C5: dropping of zero-condition filter groups -/

/-- C5 counterexample: the group `{x: {gt: 0}}` translates to zero
conditions; the claim says both stores drop it from the OR-list, but the
event log keeps it, producing the malformed clause `()`. -/
theorem C5_counterexample :
    elGroupPairs [("x", FilterVal.range (some (Val.n 0)) none none none)] = [] ∧
    (elTranslate [[("x", FilterVal.range (some (Val.n 0)) none none none)]]).1 = [[]] ∧
    filterExpStr (elTranslate [[("x", FilterVal.range (some (Val.n 0)) none none none)]]).1 =
      "()" := by
  refine ⟨by decide, by decide, by decide⟩

/-- C5 (amended): the message store drops every zero-condition group from
the OR-list; the event log pushes such a group anyway, so its OR-list gains
an empty entry whose rendering is the malformed clause `()`. -/
theorem C5_emptyGroups_amended :
    (∀ fs : List FilterGroup, [] ∉ (msTranslate fs).1) ∧
    (∀ (fs : List FilterGroup) (g : FilterGroup), g ∈ fs → elGroupPairs g = [] →
        [] ∈ (elTranslate fs).1 ∧ groupStr [] = "()") := by
  constructor
  · intro fs hmem
    simp only [msTranslate] at hmem
    obtain ⟨ps, hps, hmap⟩ := List.mem_map.mp hmem
    have hne := (List.mem_filter.mp hps).2
    rw [List.map_eq_nil_iff.mp hmap] at hne
    simp at hne
  · intro fs g hg he
    constructor
    · simp only [elTranslate]
      refine List.mem_map.mpr ⟨elGroupPairs g, List.mem_map_of_mem elGroupPairs hg, ?_⟩
      rw [he]
      rfl
    · rfl

/-- C5 witness: for a concrete filter list containing one zero-condition
group and one regular group, the event-log OR-list keeps the empty entry. -/
theorem C5_emptyGroups_amended_witness :
    [] ∉ (msTranslate [[("x", FilterVal.range (some (Val.n 0)) none none none)],
        [("y", FilterVal.scalar (Val.n 3))]]).1 ∧
    [] ∈ (elTranslate [[("x", FilterVal.range (some (Val.n 0)) none none none)],
        [("y", FilterVal.scalar (Val.n 3))]]).1 :=
  ⟨C5_emptyGroups_amended.1 _,
   (C5_emptyGroups_amended.2 _ [("x", FilterVal.range (some (Val.n 0)) none none none)]
      (List.mem_cons_self _ _) rfl).1⟩

/-! ### Claim C3: over-fetch pagination -/

/-- C3 counterexample: a message-store query with limit 1 and an empty
filter list requests `1 * 0 + 1 = 1` item — not more than the limit — and
the event log's query emits a cursor from a result of a single item even
though it is within any limit. -/
theorem C3_counterexample :
    requestedLimit 0 (some 1) = some 1 ∧ ¬ (1 : Nat) < 1 ∧
    elQueryEventsTry [⟨"t", "e1", 1⟩] "t" [] none =
      Except.ok (["e1"], some (ELCursor.fromItem "t" "e1" 1)) :=
  ⟨by decide, by decide, rfl⟩

/-- C3 (amended): a message-store paginated query with limit `l ≥ 1` and at
least one filter group requests `l * numFilters + 1 > l` items (with an
empty group list it requests exactly one); when more than `l` items come
back, the items beyond the first `l` are discarded and a cursor built from
the last returned item is emitted, and when at most `l` come back no cursor
is emitted.  The event log's query sets no limit and emits a cursor built
from the last item whenever at least one item is returned. -/
theorem C3_pagination_amended :
    (∀ n l : Nat, 1 ≤ n → 1 ≤ l →
        requestedLimit n (some l) = some (l * n + 1) ∧ l < l * n + 1) ∧
    (∀ (results : List DbRecord) (l : Nat), l < results.length →
        processPaginationResults results (some l) =
          (results.take l, (results.take l).getLast?)) ∧
    (∀ (results : List DbRecord) (l : Nat), 1 ≤ l → l < results.length →
        ((results.take l).getLast?).isSome = true) ∧
    (∀ (results : List DbRecord) (l : Nat), results.length ≤ l →
        processPaginationResults results (some l) = (results, none)) ∧
    (∀ (evs : List ELEvent) (tenant : String) (fs : List FilterGroup)
        (cursor : Option ELCursor) (res : List String × Option ELCursor),
        elQueryEventsTry evs tenant fs cursor = Except.ok res → res.1 ≠ [] →
        ∃ tn cid w, res.2 = some (ELCursor.fromItem tn cid w)) := by
  refine ⟨?_, ?_, ?_, ?_, ?_⟩
  · intro n l hn hl
    constructor
    · simp only [requestedLimit]
      rw [if_neg (by omega)]
    · have h1 : l * 1 ≤ l * n := Nat.mul_le_mul_left l hn
      rw [Nat.mul_one] at h1
      exact Nat.lt_succ_of_le h1
  · intro results l h
    simp only [processPaginationResults]
    rw [if_pos h]
  · intro results l hl h
    rw [List.getLast?_isSome]
    have h2 : (results.take l).length = l := by
      rw [List.length_take]
      omega
    intro hnil
    rw [hnil] at h2
    simp at h2
    omega
  · intro results l h
    simp only [processPaginationResults]
    rw [if_neg (by omega)]
  · intro evs tenant fs cursor res hres h1
    unfold elQueryEventsTry at hres
    split at hres
    · exact absurd hres (by simp)
    · split at hres
      · exact absurd hres (by simp)
      · rename_i start heq
        split at hres
        · rename_i last hlast
          refine ⟨last.tenant, last.messageCid, last.watermark, ?_⟩
          have := Except.ok.inj hres
          rw [← this]
        · rename_i hlast
          have := Except.ok.inj hres
          have h2 : res.1 = [] := by
            rw [← this]
            have h3 : elQueryItems evs tenant fs start = [] := by
              rw [← List.getLast?_eq_none_iff]
              exact hlast
            rw [h3]
            rfl
          exact absurd h2 h1

/-- C3 witness: the theorem's parts at concrete inputs. -/
theorem C3_pagination_amended_witness :
    (requestedLimit 1 (some 2) = some (2 * 1 + 1) ∧ 2 < 2 * 1 + 1) ∧
    processPaginationResults [[("k", Val.s "a")], [("k", Val.s "b")], [("k", Val.s "c")]]
        (some 2) =
      ([[("k", Val.s "a")], [("k", Val.s "b")], [("k", Val.s "c")]].take 2,
       ([[("k", Val.s "a")], [("k", Val.s "b")], [("k", Val.s "c")]].take 2).getLast?) ∧
    (([[("k", Val.s "a")], [("k", Val.s "b")], [("k", Val.s "c")]].take 2).getLast?).isSome =
      true ∧
    processPaginationResults [[("k", Val.s "a")]] (some 3) = ([[("k", Val.s "a")]], none) ∧
    (∃ tn cid w, ((["e1"], some (ELCursor.fromItem "t" "e1" 1)) :
        List String × Option ELCursor).2 = some (ELCursor.fromItem tn cid w)) :=
  ⟨C3_pagination_amended.1 1 2 (by decide) (by decide),
   C3_pagination_amended.2.1 _ 2 (by decide),
   C3_pagination_amended.2.2.1 _ 2 (by decide) (by decide),
   C3_pagination_amended.2.2.2.1 _ 3 (by decide),
   C3_pagination_amended.2.2.2.2 [⟨"t", "e1", 1⟩] "t" [] none
     (["e1"], some (ELCursor.fromItem "t" "e1" 1)) rfl (by decide)⟩

/-! ### Counterexamples for claims C1, C4, C6 -/

/-- C1 counterexample: an append for tenant `a_counter` with message cid
`counter` lands exactly on tenant `a`'s counter record and, being a full
item replacement, erases the `count` attribute; tenant `a`'s next append
restarts at watermark 1, so both the "exactly 1 greater" law and watermark
distinctness fail for tenant `a`. -/
theorem C1_counterexample :
    tenantTrace "a"
        (elRunTrace [] [("a", "e1"), ("a_counter", "counter"), ("a", "e2")]).2 = [1, 1] ∧
    ¬ (tenantWatermarks
        (elRunTrace [] [("a", "e1"), ("a_counter", "counter"), ("a", "e2")]).1 "a").Nodup := by
  refine ⟨by decide, by decide⟩

/-- C6 counterexample: with an empty filter list and limit 1 the query
requests a single item, so over a two-record table the first page returns
one record and no cursor: pagination terminates while the second record was
never returned, refuting the no-gaps claim. -/
theorem C6_counterexample :
    (msPaginate (fun r => match getAttr r "k" with | some (Val.s v) => v | _ => "")
        (fun _ => true) [[("k", Val.s "a")], [("k", Val.s "b")]] 0 1 3 none).map
        (fun ps => ps.flatten) = some [[("k", Val.s "a")]] ∧
    ([[("k", Val.s "a")]] : List DbRecord) ≠ [[("k", Val.s "a")], [("k", Val.s "b")]] := by
  refine ⟨by decide, by decide⟩

/-! ### Claim C2: composite sort keys -/

theorem lexLt_connex : ∀ as bs : List Char, lexLt as bs = false → bs = as ∨ lexLt bs as = true
  | [], [] => fun _ => Or.inl rfl
  | [], _ :: _ => by simp [lexLt]
  | _ :: _, [] => fun _ => Or.inr (by simp [lexLt])
  | a :: as, b :: bs => by
    simp only [lexLt]
    intro h
    rcases lt_trichotomy a b with hab | hab | hab
    · rw [if_pos hab] at h
      exact absurd h (by simp)
    · subst hab
      rw [if_neg (lt_irrefl a), if_neg (lt_irrefl a)] at h
      rcases lexLt_connex as bs h with h2 | h2
      · exact Or.inl (by rw [h2])
      · right
        rw [if_neg (lt_irrefl a), if_neg (lt_irrefl a)]
        exact h2
    · right
      rw [if_pos hab]

theorem lexLt_false_trans {as bs cs : List Char} (h1 : lexLt as bs = false)
    (h2 : lexLt bs cs = false) : lexLt as cs = false := by
  by_contra hc
  rw [Bool.not_eq_false] at hc
  rcases lexLt_connex as bs h1 with he | hlt
  · rw [he] at h2
    rw [h2] at hc
    exact absurd hc Bool.false_ne_true
  · rcases lexLt_connex bs cs h2 with he2 | hlt2
    · rw [he2] at hc
      rw [h1] at hc
      exact absurd hc Bool.false_ne_true
    · have h4 : lexLt cs as = true := lexLt_trans cs bs as hlt2 hlt
      have h5 : lexLt cs as = false := lexLt_asymm as cs hc
      rw [h4] at h5
      exact absurd h5 (by simp)

theorem strLt_false_trans {a b c : String} (h1 : strLt a b = false)
    (h2 : strLt b c = false) : strLt a c = false :=
  lexLt_false_trans h1 h2

theorem mem_insertByKey {keyOf : DbRecord → String} {x y : DbRecord} :
    ∀ {l : List DbRecord}, x ∈ insertByKey keyOf y l → x = y ∨ x ∈ l
  | [], h => by simpa [insertByKey] using h
  | z :: zs, h => by
    unfold insertByKey at h
    by_cases hc : strLt (keyOf z) (keyOf y) = true
    · rw [if_pos hc] at h
      rcases List.mem_cons.mp h with h | h
      · exact Or.inr (h ▸ List.mem_cons_self z zs)
      · rcases mem_insertByKey h with h | h
        · exact Or.inl h
        · exact Or.inr (List.mem_cons_of_mem z h)
    · rw [if_neg hc] at h
      rcases List.mem_cons.mp h with h | h
      · exact Or.inl h
      · exact Or.inr h

theorem insertByKey_pairwise (keyOf : DbRecord → String) (x : DbRecord) :
    ∀ {l : List DbRecord},
      l.Pairwise (fun a b => strLt (keyOf b) (keyOf a) = false) →
      (insertByKey keyOf x l).Pairwise (fun a b => strLt (keyOf b) (keyOf a) = false)
  | [], _ => List.pairwise_cons.mpr ⟨fun z hz => absurd hz (List.not_mem_nil z), List.Pairwise.nil⟩
  | z :: zs, h => by
    obtain ⟨hz, hzs⟩ := List.pairwise_cons.mp h
    unfold insertByKey
    by_cases hc : strLt (keyOf z) (keyOf x) = true
    · rw [if_pos hc]
      refine List.pairwise_cons.mpr ⟨?_, insertByKey_pairwise keyOf x hzs⟩
      intro w hw
      rcases mem_insertByKey hw with hw | hw
      · rw [hw]
        exact lexLt_asymm _ _ hc
      · exact hz w hw
    · rw [if_neg hc]
      refine List.pairwise_cons.mpr ⟨?_, h⟩
      intro w hw
      rcases List.mem_cons.mp hw with hw | hw
      · rw [hw]
        exact Bool.not_eq_true _ ▸ (by simpa using hc)
      · exact strLt_false_trans (hz w hw) (by simpa using hc)

theorem sortByKey_pairwise (keyOf : DbRecord → String) :
    ∀ l : List DbRecord,
      (sortByKey keyOf l).Pairwise (fun a b => strLt (keyOf b) (keyOf a) = false)
  | [] => List.Pairwise.nil
  | x :: xs => by
    unfold sortByKey
    exact insertByKey_pairwise keyOf x (sortByKey_pairwise keyOf xs)

/-- C2: a derived `<attribute>Sort` value equals the string concatenation of
the attribute value and the record's `messageCid` with no separator, is
written only when the source attribute is present, equal-valued composite
keys compare exactly as the content ids do, the sort index is ordered
ascending by the composite key, and the spec's concrete scenario (two equal
`dateCreated` values, content ids `bbb` then `aaa`) returns `aaa` first. -/
theorem C2_compositeSortKey :
    (∀ (item : DbRecord) (prop v cid : String),
        getAttr item prop = some (Val.s v) → getAttr item "messageCid" = some (Val.s cid) →
        getAttr (addSortAttrOn item prop) (prop ++ "Sort") =
          some (Val.s (compositeSortKey v cid))) ∧
    (∀ (item : DbRecord) (prop : String), getAttr item prop = none →
        addSortAttrOn item prop = item) ∧
    (∀ v c1 c2 : String, strLt (compositeSortKey v c1) (compositeSortKey v c2) = strLt c1 c2) ∧
    (∀ (store : List DbRecord) (prop : String),
        (msIndex store prop).Pairwise
          (fun a b => strLt (sortKeyOf prop b) (sortKeyOf prop a) = false)) ∧
    (msQueryModel (sortKeyOf "dateCreated") (fun _ => true)
        (msIndex (msStorePut (msStorePut []
            (msPutItem "did:t" "bbb" [("dateCreated", Val.s "2024-01-01")]))
            (msPutItem "did:t" "aaa" [("dateCreated", Val.s "2024-01-01")])) "dateCreated")
        0 none none).1.map (fun r => getAttr r "messageCid") =
      [some (Val.s "aaa"), some (Val.s "bbb")] := by
  refine ⟨?_, ?_, ?_, ?_, by decide⟩
  · intro item prop v cid h1 h2
    simp only [addSortAttrOn, h1, h2]
    rw [getAttr_recSet, if_pos rfl]
    rfl
  · intro item prop h
    simp only [addSortAttrOn, h]
  · intro v c1 c2
    exact strLt_append_left v c1 c2
  · intro store prop
    exact sortByKey_pairwise (sortKeyOf prop) _

/-- C2 witness: the composite-key conjuncts at a concrete record. -/
theorem C2_compositeSortKey_witness :
    getAttr
        (addSortAttrOn [("messageCid", Val.s "aaa"), ("dateCreated", Val.s "2024-01-01")]
          "dateCreated") ("dateCreated" ++ "Sort") =
      some (Val.s (compositeSortKey "2024-01-01" "aaa")) ∧
    addSortAttrOn [("messageCid", Val.s "aaa")] "dateCreated" = [("messageCid", Val.s "aaa")] :=
  ⟨C2_compositeSortKey.1 _ "dateCreated" "2024-01-01" "aaa" rfl rfl,
   C2_compositeSortKey.2.1 _ "dateCreated" rfl⟩

/-! ### Claim C4: filter translation semantics -/

theorem insertByTimeout_perm (x : TaskItem) : ∀ l : List TaskItem,
    (insertByTimeout x l).Perm (x :: l)
  | [] => List.Perm.refl _
  | y :: ys => by
    unfold insertByTimeout
    by_cases hc : y.timeout < x.timeout
    · rw [if_pos hc]
      exact (List.Perm.cons y (insertByTimeout_perm x ys)).trans (List.Perm.swap x y ys)
    · rw [if_neg hc]

theorem sortByTimeout_perm : ∀ l : List TaskItem, (sortByTimeout l).Perm l
  | [] => List.Perm.refl _
  | x :: xs => by
    unfold sortByTimeout
    exact (insertByTimeout_perm x (sortByTimeout xs)).trans
      (List.Perm.cons x (sortByTimeout_perm xs))

theorem insertByTimeout_pairwise (x : TaskItem) : ∀ {l : List TaskItem},
    l.Pairwise (fun a b => a.timeout ≤ b.timeout) →
    (insertByTimeout x l).Pairwise (fun a b => a.timeout ≤ b.timeout)
  | [], _ =>
    List.pairwise_cons.mpr ⟨fun z hz => absurd hz (List.not_mem_nil z), List.Pairwise.nil⟩
  | z :: zs, h => by
    obtain ⟨hz, hzs⟩ := List.pairwise_cons.mp h
    unfold insertByTimeout
    by_cases hc : z.timeout < x.timeout
    · rw [if_pos hc]
      refine List.pairwise_cons.mpr ⟨?_, insertByTimeout_pairwise x hzs⟩
      intro w hw
      rcases mem_insertByTimeout hw with hw | hw
      · rw [hw]
        exact Nat.le_of_lt hc
      · exact hz w hw
    · rw [if_neg hc]
      refine List.pairwise_cons.mpr ⟨?_, h⟩
      intro w hw
      rcases List.mem_cons.mp hw with hw | hw
      · rw [hw]
        exact Nat.le_of_not_lt hc
      · exact Nat.le_trans (Nat.le_of_not_lt hc) (hz w hw)

theorem sortByTimeout_pairwise : ∀ l : List TaskItem,
    (sortByTimeout l).Pairwise (fun a b => a.timeout ≤ b.timeout)
  | [] => List.Pairwise.nil
  | x :: xs => by
    unfold sortByTimeout
    exact insertByTimeout_pairwise x (sortByTimeout_pairwise xs)

theorem find?_taskid_of_nodup : ∀ {l : List TaskItem} {it : TaskItem},
    (l.map (fun x => x.taskid)).Nodup → it ∈ l →
    l.find? (fun x => decide (x.taskid = it.taskid)) = some it := by
  intro l
  induction l with
  | nil => intro it _ hmem; cases hmem
  | cons hd tl ih =>
    intro it hnd hmem
    rw [List.map_cons, List.nodup_cons] at hnd
    rcases List.mem_cons.mp hmem with hmem | hmem
    · subst hmem
      exact List.find?_cons_of_pos _ (by simp)
    · have hk : hd.taskid ≠ it.taskid := by
        intro he
        exact hnd.1 (he ▸ List.mem_map_of_mem _ hmem)
      rw [List.find?_cons_of_neg _ (by simpa using hk)]
      exact ih hnd.2 hmem

/-- The cumulative effect of the delete-then-reinsert loop: a selected task
id maps to its refreshed item, every other id is untouched. -/
theorem taskGet_grabFold : ∀ (selected st : List TaskItem) (nt : Nat) (id : String),
    ((selected.map (fun it => it.taskid)).Nodup) →
    taskGet (grabFold st selected nt) id =
      (match selected.find? (fun it => decide (it.taskid = id)) with
       | some it => some ⟨it.taskid, nt, it.task, it.retryCount⟩
       | none => taskGet st id)
  | [], st, nt, id, _ => rfl
  | hd :: tl, st, nt, id, hnd => by
    rw [List.map_cons, List.nodup_cons] at hnd
    show taskGet (grabFold
        (taskPut (taskDelete st hd.taskid) ⟨hd.taskid, nt, hd.task, hd.retryCount⟩) tl nt) id = _
    rw [taskGet_grabFold tl _ nt id hnd.2]
    by_cases hid : hd.taskid = id
    · rw [List.find?_cons_of_pos _ (by simpa using hid)]
      have hfnone : tl.find? (fun it => decide (it.taskid = id)) = none := by
        rw [List.find?_eq_none]
        intro it hit
        simp only [decide_eq_true_eq]
        intro he
        exact hnd.1 (by rw [hid]; exact he ▸ List.mem_map_of_mem _ hit)
      rw [hfnone, taskGet_taskPut, if_pos hid.symm]
    · rw [List.find?_cons_of_neg _ (by simpa using hid)]
      cases hfind : tl.find? (fun it => decide (it.taskid = id)) with
      | some it => rfl
      | none =>
        show taskGet (taskPut (taskDelete st hd.taskid)
          ⟨hd.taskid, nt, hd.task, hd.retryCount⟩) id = taskGet st id
        rw [taskGet_taskPut, if_neg (fun he => hid he.symm), taskGet_taskDelete,
          if_neg (fun he => hid he.symm)]

/-- C9: `grab(count)` selects only tasks whose stored timeout is at most the
current time, at most `count` of them, in ascending timeout order; each
selected task is deleted and reinserted with timeout `now + 60 * 1000`
(the fixed 60-second window) with its payload and `retryCount` attribute
copied verbatim; other tasks are untouched, and the returned tasks carry the
new timeout with the parsed retry count. -/
theorem C9_grabSemantics (st : List TaskItem) (now count : Nat)
    (hN : (st.map (fun x => x.taskid)).Nodup) :
    (∀ x ∈ grabSelect st now count, x.timeout ≤ now) ∧
    (grabSelect st now count).length ≤ count ∧
    (grabSelect st now count).Pairwise (fun a b => a.timeout ≤ b.timeout) ∧
    (grab st now count).1 = (grabSelect st now count).map
      (fun it => ⟨it.taskid, it.task, parseRetryCount it.retryCount, now + 60 * 1000⟩) ∧
    (∀ it ∈ grabSelect st now count,
        taskGet (grab st now count).2 it.taskid =
          some ⟨it.taskid, now + 60 * 1000, it.task, it.retryCount⟩) ∧
    (∀ x ∈ st, x.taskid ∉ (grabSelect st now count).map (fun it => it.taskid) →
        taskGet (grab st now count).2 x.taskid = taskGet st x.taskid) := by
  have hsub : (grabSelect st now count).Sublist (sortByTimeout st) :=
    (List.take_sublist _ _).trans (List.filter_sublist _)
  have hsortnd : ((sortByTimeout st).map (fun x => x.taskid)).Nodup :=
    ((sortByTimeout_perm st).map _).nodup_iff.mpr hN
  have hselnd : ((grabSelect st now count).map (fun x => x.taskid)).Nodup :=
    (hsub.map _).nodup hsortnd
  refine ⟨?_, ?_, ?_, rfl, ?_, ?_⟩
  · intro x hx
    have h1 := List.mem_filter.mp (List.mem_of_mem_take hx)
    exact of_decide_eq_true h1.2
  · exact List.length_take_le _ _
  · exact List.Pairwise.sublist hsub (sortByTimeout_pairwise st)
  · intro it hit
    show taskGet (grabFold st (grabSelect st now count)
      (now + taskTimeoutInSeconds * 1000)) it.taskid = _
    rw [taskGet_grabFold _ st _ _ hselnd, find?_taskid_of_nodup hselnd hit]
    rfl
  · intro x hx hnot
    show taskGet (grabFold st (grabSelect st now count)
      (now + taskTimeoutInSeconds * 1000)) x.taskid = _
    rw [taskGet_grabFold _ st _ _ hselnd]
    have hf : (grabSelect st now count).find? (fun y => decide (y.taskid = x.taskid)) = none := by
      rw [List.find?_eq_none]
      intro y hy
      simp only [decide_eq_true_eq]
      intro he
      exact hnot (he ▸ List.mem_map_of_mem _ hy)
    rw [hf]

/-- C9 witness: over a concrete three-task table at `now = 100`, `grab`
refreshes the two expired tasks and leaves the unexpired one untouched. -/
theorem C9_grabSemantics_witness :
    (grabSelect [⟨"t1", 50, "w1", Val.s "0"⟩, ⟨"t2", 200, "w2", Val.s "0"⟩,
        ⟨"t3", 10, "w3", Val.s "0"⟩] 100 5).length ≤ 5 ∧
    taskGet (grab [⟨"t1", 50, "w1", Val.s "0"⟩, ⟨"t2", 200, "w2", Val.s "0"⟩,
        ⟨"t3", 10, "w3", Val.s "0"⟩] 100 5).2 "t3" =
      some ⟨"t3", 100 + 60 * 1000, "w3", Val.s "0"⟩ ∧
    taskGet (grab [⟨"t1", 50, "w1", Val.s "0"⟩, ⟨"t2", 200, "w2", Val.s "0"⟩,
        ⟨"t3", 10, "w3", Val.s "0"⟩] 100 5).2 "t2" =
      taskGet [⟨"t1", 50, "w1", Val.s "0"⟩, ⟨"t2", 200, "w2", Val.s "0"⟩,
        ⟨"t3", 10, "w3", Val.s "0"⟩] "t2" :=
  ⟨(C9_grabSemantics _ 100 5 (by decide)).2.1,
   (C9_grabSemantics [⟨"t1", 50, "w1", Val.s "0"⟩, ⟨"t2", 200, "w2", Val.s "0"⟩,
       ⟨"t3", 10, "w3", Val.s "0"⟩] 100 5 (by decide)).2.2.2.2.1
     ⟨"t3", 10, "w3", Val.s "0"⟩ (by decide),
   (C9_grabSemantics [⟨"t1", 50, "w1", Val.s "0"⟩, ⟨"t2", 200, "w2", Val.s "0"⟩,
       ⟨"t3", 10, "w3", Val.s "0"⟩] 100 5 (by decide)).2.2.2.2.2
     ⟨"t2", 200, "w2", Val.s "0"⟩ (by decide) (by decide)⟩

/-! ### Claim C6: cursor resume and pagination coverage -/

/-- Resuming strictly after the key of an item of a strictly sorted index
yields exactly the items following it. -/
theorem afterKey_split (keyOf : DbRecord → String) {table pre suf : List DbRecord}
    {x : DbRecord} (hs : strictSorted keyOf table) (he : table = pre ++ x :: suf) :
    afterKey keyOf (some (keyOf x)) table = suf := by
  subst he
  obtain ⟨hpre, hxsuf, hcross⟩ := List.pairwise_append.mp hs
  obtain ⟨hx, hsuf⟩ := List.pairwise_cons.mp hxsuf
  show (pre ++ x :: suf).filter (fun it => strLt (keyOf x) (keyOf it)) = suf
  rw [List.filter_append, List.filter_cons]
  have h1 : pre.filter (fun it => strLt (keyOf x) (keyOf it)) = [] := by
    rw [List.filter_eq_nil_iff]
    intro y hy
    rw [strLt_asymm (hcross y hy x (List.mem_cons_self x suf))]
    simp
  have h2 : suf.filter (fun it => strLt (keyOf x) (keyOf it)) = suf :=
    List.filter_eq_self.mpr (fun z hz => hx z hz)
  rw [h1, h2, strLt_irrefl]
  simp

theorem afterKey_afterKey (keyOf : DbRecord → String) {table : List DbRecord}
    {c : Option DbRecord} {x : DbRecord} (hx : x ∈ afterKey keyOf (c.map keyOf) table) :
    afterKey keyOf (some (keyOf x)) table =
      afterKey keyOf (some (keyOf x)) (afterKey keyOf (c.map keyOf) table) := by
  cases c with
  | none => rfl
  | some c0 =>
    have h0 : strLt (keyOf c0) (keyOf x) = true := (List.mem_filter.mp hx).2
    show table.filter (fun it => strLt (keyOf x) (keyOf it)) =
      (table.filter (fun it => strLt (keyOf c0) (keyOf it))).filter
        (fun it => strLt (keyOf x) (keyOf it))
    rw [List.filter_filter]
    refine List.filter_congr (fun a ha => ?_)
    cases hpa : strLt (keyOf x) (keyOf a) with
    | false => rfl
    | true =>
      rw [strLt_trans h0 hpa]
      rfl

theorem afterKey_resume (keyOf : DbRecord → String) {table : List DbRecord}
    (hs : strictSorted keyOf table) {c : Option DbRecord} {l : Nat} {x : DbRecord}
    (hx : ((afterKey keyOf (c.map keyOf) table).take l).getLast? = some x) :
    afterKey keyOf (some (keyOf x)) table = (afterKey keyOf (c.map keyOf) table).drop l := by
  have hne : (afterKey keyOf (c.map keyOf) table).take l ≠ [] := by
    intro h0
    rw [h0] at hx
    exact Option.noConfusion hx
  have hxl : ((afterKey keyOf (c.map keyOf) table).take l).getLast hne = x := by
    have hq := List.getLast?_eq_getLast _ hne
    rw [hq] at hx
    exact Option.some.inj hx
  have hmem : x ∈ afterKey keyOf (c.map keyOf) table := by
    rw [← hxl]
    exact List.mem_of_mem_take (List.getLast_mem hne)
  have hsREM : strictSorted keyOf (afterKey keyOf (c.map keyOf) table) := by
    cases c with
    | none => exact hs
    | some c0 => exact List.Pairwise.sublist (List.filter_sublist _) hs
  have hsplit : afterKey keyOf (c.map keyOf) table =
      ((afterKey keyOf (c.map keyOf) table).take l).dropLast ++ x ::
        (afterKey keyOf (c.map keyOf) table).drop l :=
    calc afterKey keyOf (c.map keyOf) table
        = (afterKey keyOf (c.map keyOf) table).take l ++
            (afterKey keyOf (c.map keyOf) table).drop l := (List.take_append_drop l _).symm
      _ = (((afterKey keyOf (c.map keyOf) table).take l).dropLast ++
            [((afterKey keyOf (c.map keyOf) table).take l).getLast hne]) ++
            (afterKey keyOf (c.map keyOf) table).drop l := by
          rw [List.dropLast_append_getLast hne]
      _ = ((afterKey keyOf (c.map keyOf) table).take l).dropLast ++ x ::
            (afterKey keyOf (c.map keyOf) table).drop l := by
          rw [hxl, List.append_assoc, List.singleton_append]
  rw [afterKey_afterKey keyOf hmem]
  exact afterKey_split keyOf hsREM hsplit

/-- Cursor pagination covers the index: with at least one filter group, a
positive limit and a filter every record satisfies, re-issuing the query
with each returned cursor terminates within `length + 1` rounds, and the
pages concatenate exactly to the items after the starting cursor — no gaps
and no duplicates. -/
theorem msPaginate_covers (keyOf : DbRecord → String) (p : DbRecord → Bool)
    (table : List DbRecord) (n l : Nat) (hs : strictSorted keyOf table)
    (hp : ∀ x ∈ table, p x = true) (hn : 1 ≤ n) (hl : 1 ≤ l) :
    ∀ (fuel : Nat) (c : Option DbRecord),
      (afterKey keyOf (c.map keyOf) table).length < fuel →
      ∃ pages, msPaginate keyOf p table n l fuel c = some pages ∧
        pages.flatten = afterKey keyOf (c.map keyOf) table := by
  intro fuel
  induction fuel with
  | zero => intro c hc; omega
  | succ fuel ih =>
    intro c hc
    have h1 : l * 1 ≤ l * n := Nat.mul_le_mul_left l hn
    rw [Nat.mul_one] at h1
    have hlle : l ≤ l * n + 1 := Nat.le_succ_of_le h1
    have hltn : l < l * n + 1 := Nat.lt_succ_of_le h1
    have hreq : requestedLimit n (some l) = some (l * n + 1) := by
      simp only [requestedLimit]
      rw [if_neg (by omega)]
    have hsubT : ∀ x ∈ afterKey keyOf (c.map keyOf) table, x ∈ table := by
      intro x hx
      cases c with
      | none => exact hx
      | some c0 => exact (List.mem_filter.mp hx).1
    have hitems : ddbQueryPage keyOf p table (c.map keyOf) (requestedLimit n (some l)) =
        (afterKey keyOf (c.map keyOf) table).take (l * n + 1) := by
      rw [hreq]
      show ((afterKey keyOf (c.map keyOf) table).take (l * n + 1)).filter p = _
      exact List.filter_eq_self.mpr (fun x hx => hp x (hsubT x (List.mem_of_mem_take hx)))
    by_cases hcase : l < (afterKey keyOf (c.map keyOf) table).length
    · have hminlt : l < ((afterKey keyOf (c.map keyOf) table).take (l * n + 1)).length := by
        rw [List.length_take]
        exact lt_min hltn hcase
      have hne : (afterKey keyOf (c.map keyOf) table).take l ≠ [] := by
        have hlen : ((afterKey keyOf (c.map keyOf) table).take l).length = l := by
          rw [List.length_take]
          exact min_eq_left (Nat.le_of_lt hcase)
        intro h0
        rw [h0] at hlen
        simp at hlen
        omega
      have hgl := List.getLast?_eq_getLast _ hne
      have hquery : msQueryModel keyOf p table n (some l) c =
          ((afterKey keyOf (c.map keyOf) table).take l,
           some (((afterKey keyOf (c.map keyOf) table).take l).getLast hne)) := by
        unfold msQueryModel
        rw [hitems]
        simp only [processPaginationResults]
        rw [if_pos hminlt, List.take_take, min_eq_left hlle, hgl]
      have hresume := afterKey_resume keyOf hs hgl
      have hlen2 : (afterKey keyOf
          (some (keyOf (((afterKey keyOf (c.map keyOf) table).take l).getLast hne)))
          table).length < fuel := by
        rw [hresume, List.length_drop]
        omega
      obtain ⟨pages, hpg, hflat⟩ :=
        ih (some (((afterKey keyOf (c.map keyOf) table).take l).getLast hne)) hlen2
      have hstep : msPaginate keyOf p table n l (fuel + 1) c =
          (msPaginate keyOf p table n l fuel
            (some (((afterKey keyOf (c.map keyOf) table).take l).getLast hne))).map
            (fun ps => (afterKey keyOf (c.map keyOf) table).take l :: ps) := by
        simp only [msPaginate]
        rw [hquery]
      refine ⟨(afterKey keyOf (c.map keyOf) table).take l :: pages, ?_, ?_⟩
      · rw [hstep, hpg]
        rfl
      · show (afterKey keyOf (c.map keyOf) table).take l ++ pages.flatten =
          afterKey keyOf (c.map keyOf) table
        rw [show ((some (((afterKey keyOf (c.map keyOf) table).take l).getLast hne) :
            Option DbRecord).map keyOf) =
            some (keyOf (((afterKey keyOf (c.map keyOf) table).take l).getLast hne)) from rfl]
          at hflat
        rw [hflat, hresume]
        exact List.take_append_drop l _
    · have hquery2 : msQueryModel keyOf p table n (some l) c =
          (afterKey keyOf (c.map keyOf) table, none) := by
        unfold msQueryModel
        rw [hitems,
          List.take_of_length_le (Nat.le_trans (Nat.le_of_not_lt hcase) hlle)]
        simp only [processPaginationResults]
        rw [if_neg (by omega)]
      have hstep : msPaginate keyOf p table n l (fuel + 1) c =
          some [afterKey keyOf (c.map keyOf) table] := by
        simp only [msPaginate]
        rw [hquery2]
      refine ⟨[afterKey keyOf (c.map keyOf) table], hstep, ?_⟩
      show afterKey keyOf (c.map keyOf) table ++ List.flatten [] =
        afterKey keyOf (c.map keyOf) table
      simp

/-- C6 (amended): resuming a query with the emitted cursor yields exactly
the items following the last returned item of a strictly sorted index; and
with at least one filter group, a positive limit and a filter matching every
record, repeatedly re-issuing the query with each returned cursor terminates
with a cursor-less page and the pages partition the whole index with no gaps
and no duplicates.  (With an empty filter group list the fetch limit
degenerates to one item and coverage fails, see the counterexample; no
coverage statement is made for filters that exclude some stored records.) -/
theorem C6_cursorPagination_amended :
    (∀ (keyOf : DbRecord → String) (table pre suf : List DbRecord) (x : DbRecord),
        strictSorted keyOf table → table = pre ++ x :: suf →
        afterKey keyOf (some (keyOf x)) table = suf) ∧
    (∀ (keyOf : DbRecord → String) (p : DbRecord → Bool) (table : List DbRecord) (n l : Nat),
        strictSorted keyOf table → (∀ x ∈ table, p x = true) → 1 ≤ n → 1 ≤ l →
        ∃ pages, msPaginate keyOf p table n l (table.length + 1) none = some pages ∧
          pages.flatten = table) := by
  constructor
  · intro keyOf table pre suf x hs he
    exact afterKey_split keyOf hs he
  · intro keyOf p table n l hs hp hn hl
    exact msPaginate_covers keyOf p table n l hs hp hn hl (table.length + 1) none
      (Nat.lt_succ_self _)

/-- C6 witness: over a concrete two-record sorted index with one matching
filter group and limit 1, resume lands after the last item and pagination
covers both records. -/
theorem C6_cursorPagination_amended_witness :
    afterKey (fun r => match getAttr r "k" with | some (Val.s v) => v | _ => "")
        (some ((fun r : DbRecord => match getAttr r "k" with | some (Val.s v) => v | _ => "")
          [("k", Val.s "b")]))
        [[("k", Val.s "a")], [("k", Val.s "b")]] = [] ∧
    (∃ pages, msPaginate (fun r => match getAttr r "k" with | some (Val.s v) => v | _ => "")
        (fun _ => true) [[("k", Val.s "a")], [("k", Val.s "b")]] 1 1
        ([[("k", Val.s "a")], [("k", Val.s "b")]].length + 1) none = some pages ∧
      pages.flatten = [[("k", Val.s "a")], [("k", Val.s "b")]]) :=
  ⟨C6_cursorPagination_amended.1 _ _ [[("k", Val.s "a")]] [] [("k", Val.s "b")]
     (by unfold strictSorted; decide) rfl,
   C6_cursorPagination_amended.2 _ (fun _ => true) _ 1 1 (by unfold strictSorted; decide)
     (fun x _ => rfl) (by decide) (by decide)⟩

/-! ### Claim C1: watermark allocation -/

theorem string_data_inj {a b : String} (h : a.data = b.data) : a = b := by
  cases a
  cases b
  exact congrArg String.mk (by simpa using h)

theorem counterKey_inj {t1 t2 : String} (h : counterKey t1 = counterKey t2) : t1 = t2 := by
  have h1 : t1 ++ "_counter" = t2 ++ "_counter" := congrArg Prod.fst h
  have h2 : (t1 ++ "_counter").data = (t2 ++ "_counter").data := congrArg String.data h1
  rw [String.data_append t1 "_counter", String.data_append t2 "_counter"] at h2
  exact string_data_inj (List.append_cancel_right h2)

theorem safeOp_event_ne_counter {tn cid : String} (h : safeOp (tn, cid)) (t : String) :
    ((tn, cid) : ELKey) ≠ counterKey t := by
  intro he
  rcases h with h | h
  · exact h t (congrArg Prod.fst he)
  · exact h (congrArg Prod.snd he)

theorem tblGet_some_mem {tbl : ELTable} {k : ELKey} {it : ELItem}
    (h : tblGet tbl k = some it) : ∃ e ∈ tbl, e.1 = k ∧ e.2 = it := by
  unfold tblGet at h
  cases hf : tbl.find? (fun e => decide (e.1 = k)) with
  | none => rw [hf] at h; exact Option.noConfusion h
  | some e =>
    rw [hf] at h
    have hp := List.find?_some hf
    simp only [decide_eq_true_eq] at hp
    exact ⟨e, List.mem_of_find?_eq_some hf, hp, Option.some.inj h⟩

theorem mem_tblPut {tbl : ELTable} {k : ELKey} {v : ELItem} {e : ELKey × ELItem}
    (h : e ∈ tblPut tbl k v) : (e ∈ tbl ∧ e.1 ≠ k) ∨ e = (k, v) := by
  rcases List.mem_append.mp h with h | h
  · have h2 := List.mem_filter.mp h
    refine Or.inl ⟨h2.1, ?_⟩
    simpa using h2.2
  · exact Or.inr (List.mem_singleton.mp h)

theorem counterVal_tblPut_ne (tbl : ELTable) (k : ELKey) (v : ELItem) (t : String)
    (h : k ≠ counterKey t) : counterVal (tblPut tbl k v) t = counterVal tbl t := by
  unfold counterVal
  rw [tblGet_tblPut, if_neg (fun he => h he.symm)]

/-- The append step in explicit form: the counter item keeps its other
attributes and carries the incremented count; the event item is a fresh full
item holding only the watermark. -/
theorem elAppendStep_eq (tbl : ELTable) (tn cid : String) :
    elAppendStep tbl tn cid =
      (tblPut (tblPut tbl (counterKey tn)
          ⟨some (counterVal tbl tn + 1),
           ((tblGet tbl (counterKey tn)).getD ⟨none, none⟩).watermark⟩)
        (tn, cid) ⟨none, some (counterVal tbl tn + 1)⟩,
       counterVal tbl tn + 1) := by
  simp only [elAppendStep, elIncrement, counterVal]
  cases hg : tblGet tbl (counterKey tn) <;> simp [hg]

theorem elAppendStep_watermark (tbl : ELTable) (tn cid : String) :
    (elAppendStep tbl tn cid).2 = counterVal tbl tn + 1 := by
  rw [elAppendStep_eq]

theorem counterVal_elAppendStep (tbl : ELTable) (tn cid : String)
    (hsafe : safeOp (tn, cid)) (t : String) :
    counterVal (elAppendStep tbl tn cid).1 t =
      if t = tn then counterVal tbl tn + 1 else counterVal tbl t := by
  rw [elAppendStep_eq]
  show counterVal (tblPut (tblPut tbl (counterKey tn)
      ⟨some (counterVal tbl tn + 1),
       ((tblGet tbl (counterKey tn)).getD ⟨none, none⟩).watermark⟩)
    (tn, cid) ⟨none, some (counterVal tbl tn + 1)⟩) t = _
  rw [counterVal_tblPut_ne _ _ _ _ (safeOp_event_ne_counter hsafe t)]
  by_cases ht : t = tn
  · subst ht
    rw [if_pos rfl]
    unfold counterVal
    rw [tblGet_tblPut, if_pos rfl]
    rfl
  · rw [if_neg ht, counterVal_tblPut_ne _ _ _ _ (fun he => ht (counterKey_inj he).symm)]

theorem tenantTrace_cons_self (t : String) (w : Nat) (tr : List (String × Nat)) :
    tenantTrace t ((t, w) :: tr) = w :: tenantTrace t tr := by
  unfold tenantTrace
  rw [List.filterMap_cons]
  simp

theorem tenantTrace_cons_ne {t tn : String} (h : tn ≠ t) (w : Nat) (tr : List (String × Nat)) :
    tenantTrace t ((tn, w) :: tr) = tenantTrace t tr := by
  unfold tenantTrace
  rw [List.filterMap_cons]
  simp [h]

theorem appendCount_cons_self (t cid : String) (ops : List (String × String)) :
    appendCount t ((t, cid) :: ops) = appendCount t ops + 1 := by
  unfold appendCount
  rw [List.filter_cons, if_pos (by simp)]
  rfl

theorem appendCount_cons_ne {t tn : String} (h : tn ≠ t) (cid : String)
    (ops : List (String × String)) : appendCount t ((tn, cid) :: ops) = appendCount t ops := by
  unfold appendCount
  rw [List.filter_cons, if_neg (by simp [h])]

/-- The watermarks a tenant's appends receive are consecutive, continuing
from the tenant's current counter value. -/
theorem elRunTrace_tenantTrace : ∀ (ops : List (String × String)) (tbl : ELTable),
    (∀ op ∈ ops, safeOp op) → ∀ t : String,
    tenantTrace t (elRunTrace tbl ops).2 =
      List.range' (counterVal tbl t + 1) (appendCount t ops)
  | [], _, _, _ => rfl
  | (tn, cid) :: ops, tbl, hsafe, t => by
    have hs0 : safeOp (tn, cid) := hsafe _ (List.mem_cons_self _ _)
    have hrec := elRunTrace_tenantTrace ops (elAppendStep tbl tn cid).1
      (fun op hop => hsafe op (List.mem_cons_of_mem _ hop)) t
    show tenantTrace t ((tn, (elAppendStep tbl tn cid).2) ::
      (elRunTrace (elAppendStep tbl tn cid).1 ops).2) = _
    by_cases ht : t = tn
    · subst ht
      rw [tenantTrace_cons_self, hrec, counterVal_elAppendStep tbl t cid hs0 t, if_pos rfl,
        elAppendStep_watermark, appendCount_cons_self, List.range'_succ]
    · rw [tenantTrace_cons_ne (fun he => ht he.symm), hrec,
        counterVal_elAppendStep tbl tn cid hs0 t, if_neg ht,
        appendCount_cons_ne (fun he => ht he.symm)]

theorem elAppendStep_fst (tbl : ELTable) (tn cid : String) :
    (elAppendStep tbl tn cid).1 =
      tblPut (tblPut tbl (counterKey tn)
          ⟨some (counterVal tbl tn + 1),
           ((tblGet tbl (counterKey tn)).getD ⟨none, none⟩).watermark⟩)
        (tn, cid) ⟨none, some (counterVal tbl tn + 1)⟩ := by
  rw [elAppendStep_eq]

theorem mem_tenantWatermarks {tbl : ELTable} {t : String} {w : Nat}
    (h : w ∈ tenantWatermarks tbl t) : ∃ e ∈ tbl, e.1.1 = t ∧ e.2.watermark = some w := by
  unfold tenantWatermarks at h
  obtain ⟨e, he, hf⟩ := List.mem_filterMap.mp h
  by_cases ht : e.1.1 = t
  · rw [if_pos ht] at hf
    exact ⟨e, he, ht, hf⟩
  · rw [if_neg ht] at hf
    exact Option.noConfusion hf

theorem tenantWatermarks_tblPut (tbl : ELTable) (k : ELKey) (v : ELItem) (t : String) :
    tenantWatermarks (tblPut tbl k v) t =
      tenantWatermarks (tbl.filter (fun e => !(decide (e.1 = k)))) t ++
        tenantWatermarks [(k, v)] t := by
  unfold tenantWatermarks tblPut
  rw [List.filterMap_append]

theorem tenantWatermarks_filter_sublist (tbl : ELTable) (q : ELKey × ELItem → Bool)
    (t : String) :
    (tenantWatermarks (tbl.filter q) t).Sublist (tenantWatermarks tbl t) :=
  List.Sublist.filterMap _ (List.filter_sublist tbl)

/-- One append preserves the three table invariants: counter-shaped keys
carry no watermark, every stored watermark is bounded by its tenant's
counter, and each tenant's stored watermarks are pairwise distinct. -/
theorem elInv_step (tbl : ELTable) (tn cid : String) (hsafe : safeOp (tn, cid))
    (h0 : ∀ e ∈ tbl, ∀ s, e.1 = counterKey s → e.2.watermark = none)
    (h1 : ∀ t, ∀ e ∈ tbl, e.1.1 = t → ∀ w, e.2.watermark = some w → w ≤ counterVal tbl t)
    (h2 : ∀ t, (tenantWatermarks tbl t).Nodup) :
    (∀ e ∈ (elAppendStep tbl tn cid).1, ∀ s, e.1 = counterKey s → e.2.watermark = none) ∧
    (∀ t, ∀ e ∈ (elAppendStep tbl tn cid).1, e.1.1 = t → ∀ w, e.2.watermark = some w →
        w ≤ counterVal (elAppendStep tbl tn cid).1 t) ∧
    (∀ t, (tenantWatermarks (elAppendStep tbl tn cid).1 t).Nodup) := by
  have hOLDW : ((tblGet tbl (counterKey tn)).getD ⟨none, none⟩).watermark = none := by
    cases hg : tblGet tbl (counterKey tn) with
    | none => rfl
    | some it =>
      obtain ⟨e, he, hk, hv⟩ := tblGet_some_mem hg
      have hwm := h0 e he tn hk
      exact hv ▸ hwm
  refine ⟨?_, ?_, ?_⟩
  · intro e he s hks
    rw [elAppendStep_fst] at he
    rcases mem_tblPut he with ⟨he1, hne1⟩ | heq
    · rcases mem_tblPut he1 with ⟨he2, hne2⟩ | heq2
      · exact h0 e he2 s hks
      · rw [heq2]
        exact hOLDW
    · rw [heq] at hks
      exact absurd hks (safeOp_event_ne_counter hsafe s)
  · intro t e he ht w hw
    rw [counterVal_elAppendStep tbl tn cid hsafe t]
    rw [elAppendStep_fst] at he
    rcases mem_tblPut he with ⟨he1, hne1⟩ | heq
    · rcases mem_tblPut he1 with ⟨he2, hne2⟩ | heq2
      · have hb := h1 t e he2 ht w hw
        by_cases htn : t = tn
        · subst htn
          rw [if_pos rfl]
          omega
        · rw [if_neg htn]
          exact hb
      · rw [heq2] at hw
        have hw2 : ((tblGet tbl (counterKey tn)).getD ⟨none, none⟩).watermark = some w := hw
        rw [hOLDW] at hw2
        exact Option.noConfusion hw2
    · rw [heq] at hw ht
      have hw2 : some (counterVal tbl tn + 1) = some w := hw
      have ht2 : tn = t := ht
      subst ht2
      rw [if_pos rfl]
      have := Option.some.inj hw2
      omega
  · intro t
    rw [elAppendStep_fst, tenantWatermarks_tblPut]
    have hsingle1 : tenantWatermarks [(counterKey tn,
        (⟨some (counterVal tbl tn + 1),
          ((tblGet tbl (counterKey tn)).getD ⟨none, none⟩).watermark⟩ : ELItem))] t = [] := by
      unfold tenantWatermarks
      simp [hOLDW]
    have hnodup1 : (tenantWatermarks (tblPut tbl (counterKey tn)
        ⟨some (counterVal tbl tn + 1),
         ((tblGet tbl (counterKey tn)).getD ⟨none, none⟩).watermark⟩) t).Nodup := by
      rw [tenantWatermarks_tblPut, hsingle1, List.append_nil]
      exact (tenantWatermarks_filter_sublist tbl _ t).nodup (h2 t)
    have hmem1 : ∀ w ∈ tenantWatermarks (tblPut tbl (counterKey tn)
        ⟨some (counterVal tbl tn + 1),
         ((tblGet tbl (counterKey tn)).getD ⟨none, none⟩).watermark⟩) t,
        w ≤ counterVal tbl t := by
      intro w hwm
      rw [tenantWatermarks_tblPut, hsingle1, List.append_nil] at hwm
      have hwm2 := (tenantWatermarks_filter_sublist tbl _ t).subset hwm
      obtain ⟨e, he, hkt, hww⟩ := mem_tenantWatermarks hwm2
      exact h1 t e he hkt w hww
    by_cases htn : tn = t
    · have hsingle2 : tenantWatermarks
          [((tn, cid), (⟨none, some (counterVal tbl tn + 1)⟩ : ELItem))] t =
          [counterVal tbl tn + 1] := by
        unfold tenantWatermarks
        simp [htn]
      rw [hsingle2, List.nodup_append]
      refine ⟨(tenantWatermarks_filter_sublist _ _ t).nodup hnodup1,
        List.nodup_singleton _, ?_⟩
      intro w hw1 hw2
      have hwle : w ≤ counterVal tbl t :=
        hmem1 w ((tenantWatermarks_filter_sublist _ _ t).subset hw1)
      rw [List.mem_singleton] at hw2
      rw [← htn] at hwle
      omega
    · have hsingle2 : tenantWatermarks
          [((tn, cid), (⟨none, some (counterVal tbl tn + 1)⟩ : ELItem))] t = [] := by
        unfold tenantWatermarks
        simp [htn]
      rw [hsingle2, List.append_nil]
      exact (tenantWatermarks_filter_sublist _ _ t).nodup hnodup1

theorem elInv_run : ∀ (ops : List (String × String)) (tbl : ELTable),
    (∀ op ∈ ops, safeOp op) →
    (∀ e ∈ tbl, ∀ s, e.1 = counterKey s → e.2.watermark = none) →
    (∀ t, ∀ e ∈ tbl, e.1.1 = t → ∀ w, e.2.watermark = some w → w ≤ counterVal tbl t) →
    (∀ t, (tenantWatermarks tbl t).Nodup) →
    (∀ t, (tenantWatermarks (elRunTrace tbl ops).1 t).Nodup)
  | [], _, _, _, _, h2 => h2
  | op :: ops, tbl, hsafe, h0, h1, h2 => by
    obtain ⟨g0, g1, g2⟩ :=
      elInv_step tbl op.1 op.2 (hsafe op (List.mem_cons_self op ops)) h0 h1 h2
    exact elInv_run ops (elAppendStep tbl op.1 op.2).1
      (fun o ho => hsafe o (List.mem_cons_of_mem op ho)) g0 g1 g2

/-- C1 (amended): provided no append writes an event at a counter record key
(no op pairs a tenant of the form `s ++ "_counter"` with the message cid
`counter`), the watermarks each tenant's appends receive are exactly
1, 2, 3, …, and the stored events of one tenant never share a watermark.
The counterexample shows the proviso is necessary: an unsafe append replaces
another tenant's counter item and resets its sequence. -/
theorem C1_watermark_amended (ops : List (String × String))
    (hsafe : ∀ op ∈ ops, safeOp op) (t : String) :
    tenantTrace t (elRunTrace [] ops).2 = List.range' 1 (appendCount t ops) ∧
    (tenantWatermarks (elRunTrace [] ops).1 t).Nodup := by
  constructor
  · exact elRunTrace_tenantTrace ops [] hsafe t
  · exact elInv_run ops [] hsafe
      (fun e he => absurd he (List.not_mem_nil e))
      (fun t2 e he => absurd he (List.not_mem_nil e))
      (fun _ => List.Pairwise.nil) t

/-- C1 witness: three safe appends for tenants `a`, `a`, `b` give tenant `a`
the watermarks 1 and 2 and keep its stored watermarks distinct. -/
theorem C1_watermark_amended_witness :
    tenantTrace "a" (elRunTrace [] [("a", "e1"), ("a", "e2"), ("b", "e3")]).2 = [1, 2] ∧
    (tenantWatermarks (elRunTrace [] [("a", "e1"), ("a", "e2"), ("b", "e3")]).1 "a").Nodup := by
  have h := C1_watermark_amended [("a", "e1"), ("a", "e2"), ("b", "e3")]
    (by
      intro op hop
      fin_cases hop <;> exact Or.inr (by decide)) "a"
  exact ⟨h.1.trans (by decide), h.2⟩

end DwnAws
